import Mathlib

/-!
Verification of the graphql-authz authorization pipeline.

Part 1 embeds the orchestrator `executeWrapper` from
src/packages/core/src/wrap-execute-fn.ts.  Rule evaluations are modelled as
timed promises: each evaluation carries the (absolute, relative to the start
of its phase) time at which it settles and its outcome (`none` = fulfilled,
`some e` = rejected with error `e`).  `Promise.all` over such a list settles
with the earliest rejection if one exists, otherwise it fulfills once every
member has fulfilled.  Synchronous code takes zero time, and an `await`
resumes exactly when the awaited promise settles, matching the JavaScript
event-loop semantics the source runs under.
-/

/-- Errors flowing through the pipeline: `code n` stands for an arbitrary
error raised by a rule, the engine or the error policy, and `misconfigured`
is the generic error thrown at the end of `executeWrapper`
("processError function must throw an error"). -/
inductive Err where
  | code : Nat → Err
  | misconfigured : Err
deriving DecidableEq

/-- A rule evaluation as a settled promise: the time (from the start of its
phase) at which it settles and its outcome (`none` = fulfilled,
`some e` = rejected). -/
structure TimedEval where
  time : Nat
  result : Option Err
deriving DecidableEq

/-- The engine result of graphql: optional data plus engine-reported errors
(the `errors` array of an ExecutionResult). -/
structure ExecResult (δ : Type) where
  data : Option δ
  errors : List Err
deriving DecidableEq

/-- The earliest rejection among a list of evaluations: the pair of settle
time and error of the rejecting evaluation that settles first (ties resolved
in favour of the earlier list position, matching microtask order). -/
def earliestRejection : List TimedEval → Option (Nat × Err)
  | [] => none
  | ev :: rest =>
    match ev.result, earliestRejection rest with
    | some e, some (t, e2) => if t < ev.time then some (t, e2) else some (ev.time, e)
    | some e, none => some (ev.time, e)
    | none, r => r

/-- The time at which the last evaluation of a list settles. -/
def maxSettle (evals : List TimedEval) : Nat :=
  (evals.map (fun ev => ev.time)).foldr max 0

/-- Semantics of `Promise.all` over a list of evaluations: the time at which
the combined promise settles together with its outcome.  It rejects as soon
as the first member rejects (without waiting for the remaining members) and
fulfills only when every member has fulfilled. -/
def allSettle (evals : List TimedEval) : Nat × Option Err :=
  match earliestRejection evals with
  | some (t, e) => (t, some e)
  | none => (maxSettle evals, none)

/-- Input of one run of `executeWrapper`: the settled behaviours of the
pre-execution rule evaluations, of the engine call (duration plus result or
thrown error), of the post-execution rule evaluations scheduled for the
returned data, the result cleaner, and the configured `processError`
function (`some e` = it throws `e`, `none` = it returns normally). -/
structure WrapperInput (δ : Type) where
  preEvals : List TimedEval
  engineTime : Nat
  engineResult : Except Err (ExecResult δ)
  postEvals : δ → List TimedEval
  cleanup : δ → δ
  processError : Err → Option Err

/-- Instrumented outcome of one run of `executeWrapper`: the settled value of
the wrapper promise plus the times at which the externally visible steps
happened (`none` when the step never happened). -/
structure WrapperTrace (δ : Type) where
  result : Except Err (ExecResult δ)
  engineCalled : Bool
  engineCallTime : Option Nat
  engineDoneTime : Option Nat
  postStartTime : Option Nat
  cleanupTime : Option Nat
  settleTime : Nat

/-- Outcome of the first try/catch of `executeWrapper` (lines 44-52 of
wrap-execute-fn.ts): when `Promise.all` over the pre-execution rules rejects,
`processError` is invoked; the wrapper aborts exactly when `processError`
throws, otherwise control falls through to the engine call. -/
def preAbort {δ : Type} (inp : WrapperInput δ) : Option Err :=
  match (allSettle inp.preEvals).2 with
  | some e => inp.processError e
  | none => none

/-- Settled value of the wrapper promise after the post phase ran: on success
the cleaned data is returned together with the engine-reported errors, on
failure `processError` is invoked and, when it returns instead of throwing,
the generic misconfigured error of line 92 of wrap-execute-fn.ts is thrown. -/
def postOutcome {δ : Type} (inp : WrapperInput δ) (res : ExecResult δ) (d : δ) :
    Except Err (ExecResult δ) :=
  match (allSettle (inp.postEvals d)).2 with
  | none => Except.ok ⟨some (inp.cleanup d), res.errors⟩
  | some e =>
    match inp.processError e with
    | some e2 => Except.error e2
    | none => Except.error Err.misconfigured

/-- Lines 59-95 of wrap-execute-fn.ts for the case that the engine returned
data: the post-execution evaluations are scheduled at engine-completion time,
`cleanupResult` runs immediately afterwards (synchronously, before the
`await`), then `Promise.all` over the evaluations is awaited and the wrapper
settles with `postOutcome`. -/
def postPhase {δ : Type} (inp : WrapperInput δ) (tCall tDone : Nat)
    (res : ExecResult δ) (d : δ) : WrapperTrace δ :=
  ⟨postOutcome inp res d, true, some tCall, some tDone, some tDone, some tDone,
    tDone + (allSettle (inp.postEvals d)).1⟩

/-- Lines 54-87 of wrap-execute-fn.ts: the engine is invoked (outside any
try/catch, so a thrown engine error propagates as-is), and when it fulfills
its result is returned unchanged if it carries no data, otherwise the post
phase runs. -/
def enginePhase {δ : Type} (inp : WrapperInput δ) : WrapperTrace δ :=
  let tCall := (allSettle inp.preEvals).1
  let tDone := tCall + inp.engineTime
  match inp.engineResult with
  | Except.error e => ⟨Except.error e, true, some tCall, some tDone, none, none, tDone⟩
  | Except.ok res =>
    match res.data with
    | none => ⟨Except.ok res, true, some tCall, some tDone, none, none, tDone⟩
    | some d => postPhase inp tCall tDone res d

/-- The wrapped execute function of wrap-execute-fn.ts: await the
pre-execution rules (aborting only when a failure occurs and `processError`
throws), then call the engine, then run the post phase on returned data. -/
def executeWrapper {δ : Type} (inp : WrapperInput δ) : WrapperTrace δ :=
  match preAbort inp with
  | some e => ⟨Except.error e, false, none, none, none, none, (allSettle inp.preEvals).1⟩
  | none => enginePhase inp

/-- Data carried by a final wrapper outcome: a thrown error carries no data. -/
def finalData {δ : Type} : Except Err (ExecResult δ) → Option δ
  | Except.error _ => none
  | Except.ok r => r.data

/-- Members of a list whose earliest rejection does not exist all fulfilled. -/
theorem earliestRejection_none_mem (l : List TimedEval)
    (h : earliestRejection l = none) : ∀ ev ∈ l, ev.result = none := by
  induction l with
  | nil => intro ev hm; cases hm
  | cons e rest ih =>
    intro ev hm
    rcases hr : e.result with _ | err
    · rcases List.mem_cons.mp hm with heq | hmem
      · rw [heq]; exact hr
      · refine ih ?_ ev hmem
        simpa [earliestRejection, hr] using h
    · exfalso
      rcases hrest : earliestRejection rest with _ | ⟨t, e2⟩ <;>
        simp [earliestRejection, hr, hrest] at h
      split at h <;> simp at h

/-- Every member of a list settles no later than `maxSettle`. -/
theorem time_le_maxSettle (l : List TimedEval) (ev : TimedEval) (hm : ev ∈ l) :
    ev.time ≤ maxSettle l := by
  induction l with
  | nil => cases hm
  | cons e rest ih =>
    rcases List.mem_cons.mp hm with heq | hmem
    · rw [heq]; simp [maxSettle]
    · calc ev.time ≤ maxSettle rest := ih hmem
        _ ≤ maxSettle (e :: rest) := by simp [maxSettle]

/-- The earliest rejection of a list is realised by one of its members. -/
theorem earliestRejection_mem (l : List TimedEval) (t : Nat) (e : Err)
    (h : earliestRejection l = some (t, e)) :
    ∃ ev ∈ l, ev.time = t ∧ ev.result = some e := by
  induction l generalizing t e with
  | nil => simp [earliestRejection] at h
  | cons ev rest ih =>
    rcases hr : ev.result with _ | err
    · have h2 : earliestRejection rest = some (t, e) := by
        simpa [earliestRejection, hr] using h
      rcases ih t e h2 with ⟨ev2, hmem, hteq, hreq⟩
      exact ⟨ev2, List.mem_cons_of_mem ev hmem, hteq, hreq⟩
    · rcases hrest : earliestRejection rest with _ | ⟨t2, e2⟩
      · have h2 : ev.time = t ∧ err = e := by
          simpa [earliestRejection, hr, hrest] using h
        exact ⟨ev, List.mem_cons_self ev rest, h2.1, by rw [hr, h2.2]⟩
      · simp only [earliestRejection, hr, hrest] at h
        split at h
        · have h4 : (t2, e2) = (t, e) := by injection h
          have ht : t2 = t := congrArg Prod.fst h4
          have he : e2 = e := congrArg Prod.snd h4
          rcases ih t e (ht ▸ he ▸ hrest) with ⟨ev2, hmem, hteq, hreq⟩
          exact ⟨ev2, List.mem_cons_of_mem ev hmem, hteq, hreq⟩
        · have h4 : (ev.time, err) = (t, e) := by injection h
          have ht : ev.time = t := congrArg Prod.fst h4
          have he : err = e := congrArg Prod.snd h4
          exact ⟨ev, List.mem_cons_self ev rest, ht, by rw [hr, he]⟩

/-- The earliest rejection of a list settles no later than any rejecting
member of the list. -/
theorem earliestRejection_min (l : List TimedEval) (t : Nat) (e : Err)
    (h : earliestRejection l = some (t, e)) :
    ∀ ev ∈ l, ev.result.isSome = true → t ≤ ev.time := by
  induction l generalizing t e with
  | nil => simp [earliestRejection] at h
  | cons ev rest ih =>
    intro ev2 hm hs
    rcases hr : ev.result with _ | err
    · have h2 : earliestRejection rest = some (t, e) := by
        simpa [earliestRejection, hr] using h
      rcases List.mem_cons.mp hm with heq | hmem
      · rw [heq, hr] at hs; simp at hs
      · exact ih t e h2 ev2 hmem hs
    · rcases hrest : earliestRejection rest with _ | ⟨t2, e2⟩
      · have h2 : ev.time = t := by
          have := h; simp [earliestRejection, hr, hrest] at this; exact this.1
        rcases List.mem_cons.mp hm with heq | hmem
        · rw [heq]; exact Nat.le_of_eq h2.symm
        · exact absurd (earliestRejection_none_mem rest hrest ev2 hmem) (by
            intro hn; rw [hn] at hs; simp at hs)
      · simp only [earliestRejection, hr, hrest] at h
        split at h
        · rename_i hlt
          have h4 : (t2, e2) = (t, e) := by injection h
          have hte : t2 = t := congrArg Prod.fst h4
          rcases List.mem_cons.mp hm with heq | hmem
          · rw [heq]; exact hte ▸ Nat.le_of_lt hlt
          · exact ih t e2 (by rw [hte] at hrest; exact hrest) ev2 hmem hs
        · rename_i hnlt
          have h4 : (ev.time, err) = (t, e) := by injection h
          have hte : ev.time = t := congrArg Prod.fst h4
          rcases List.mem_cons.mp hm with heq | hmem
          · rw [heq]; exact Nat.le_of_eq hte.symm
          · calc t = ev.time := hte.symm
              _ ≤ t2 := Nat.le_of_not_lt hnlt
              _ ≤ ev2.time := ih t2 e2 hrest ev2 hmem hs

/-- A fulfilled `Promise.all` settles exactly when its last member does. -/
theorem allSettle_none_fst (l : List TimedEval)
    (h : (allSettle l).2 = none) :
    (allSettle l).1 = maxSettle l ∧ earliestRejection l = none := by
  rcases hr : earliestRejection l with _ | ⟨t, e⟩
  · constructor
    · simp [allSettle, hr]
    · rfl
  · exfalso; simp [allSettle, hr] at h

/-- A rejected `Promise.all` settles exactly when its earliest rejecting
member does. -/
theorem allSettle_some (l : List TimedEval) (e : Err)
    (h : (allSettle l).2 = some e) :
    earliestRejection l = some ((allSettle l).1, e) := by
  rcases hr : earliestRejection l with _ | ⟨t, e2⟩
  · exfalso; simp [allSettle, hr] at h
  · have h2 : e2 = e := by simpa [allSettle, hr] using h
    simp [allSettle, hr, h2]

/-- Trace facts of the engine phase that hold in every branch: the engine is
invoked at the time the pre-phase await resumed, completes after its
duration, and the post phase, when it starts at all, starts exactly at
engine-completion time. -/
theorem enginePhase_times {δ : Type} (inp : WrapperInput δ) :
    (enginePhase inp).engineCalled = true ∧
      (enginePhase inp).engineCallTime = some (allSettle inp.preEvals).1 ∧
      (enginePhase inp).engineDoneTime =
        some ((allSettle inp.preEvals).1 + inp.engineTime) ∧
      ((enginePhase inp).postStartTime = none ∨
        (enginePhase inp).postStartTime = (enginePhase inp).engineDoneTime) := by
  rcases hr : inp.engineResult with e | res
  · simp [enginePhase, hr]
  · rcases hd : res.data with _ | d <;> simp [enginePhase, hr, hd, postPhase]

/-!
Concrete wrapper inputs used by the counterexamples and witnesses below.
-/

/-- Input exhibiting the fall-through after the pre-execution catch block of
wrap-execute-fn.ts: the single pre-execution rule rejects at time 1, the
configured processError returns without throwing, the engine fulfills with
data 42, and no post-execution rule is scheduled. -/
def inpLeak : WrapperInput Nat :=
  { preEvals := [⟨1, some (Err.code 7)⟩]
    engineTime := 1
    engineResult := Except.ok ⟨some 42, []⟩
    postEvals := fun _ => []
    cleanup := fun d => d
    processError := fun _ => none }

/-- Input with a denying pre-execution rule and a processError that always
throws the generic misconfigured error. -/
def inpThrower : WrapperInput Nat :=
  { preEvals := [⟨2, some (Err.code 5)⟩]
    engineTime := 1
    engineResult := Except.ok ⟨some 7, []⟩
    postEvals := fun _ => []
    cleanup := fun d => d
    processError := fun _ => some Err.misconfigured }

/-- Input whose single post-execution rule denies while processError returns
without throwing. -/
def inpPostMiscfg : WrapperInput Nat :=
  { preEvals := []
    engineTime := 2
    engineResult := Except.ok ⟨some 3, []⟩
    postEvals := fun _ => [⟨1, some (Err.code 9)⟩]
    cleanup := fun d => d
    processError := fun _ => none }

/-- Input with a fast-failing pre-execution rule (settles at 1) and a slow
passing sibling (settles at 5), under a non-throwing processError. -/
def inpC4 : WrapperInput Nat :=
  { preEvals := [⟨1, some (Err.code 1)⟩, ⟨5, none⟩]
    engineTime := 0
    engineResult := Except.ok ⟨none, []⟩
    postEvals := fun _ => []
    cleanup := fun d => d
    processError := fun _ => none }

/-- Input with a fast-failing pre-execution rule (settles at 1) and a slow
passing sibling (settles at 5), under a rethrowing processError. -/
def inpC5 : WrapperInput Nat :=
  { preEvals := [⟨1, some (Err.code 1)⟩, ⟨5, none⟩]
    engineTime := 0
    engineResult := Except.ok ⟨none, []⟩
    postEvals := fun _ => []
    cleanup := fun d => d
    processError := fun e => some e }

/-- Input whose engine takes 3 time units and whose single post-execution
rule needs 2 more time units after the engine completes. -/
def inpC6 : WrapperInput Nat :=
  { preEvals := []
    engineTime := 3
    engineResult := Except.ok ⟨some 5, []⟩
    postEvals := fun _ => [⟨2, none⟩]
    cleanup := fun d => d
    processError := fun e => some e }

/-- Input with fulfilled pre-execution rules settling at 2 and 3. -/
def inpPassPre : WrapperInput Nat :=
  { preEvals := [⟨2, none⟩, ⟨3, none⟩]
    engineTime := 1
    engineResult := Except.ok ⟨some 8, []⟩
    postEvals := fun _ => [⟨1, none⟩]
    cleanup := fun d => d
    processError := fun e => some e }

/-- Input whose engine itself rejects with error code 9 although the
configured processError would translate every error it receives. -/
def inpEngineErr : WrapperInput Nat :=
  { preEvals := [⟨1, none⟩]
    engineTime := 4
    engineResult := Except.error (Err.code 9)
    postEvals := fun _ => []
    cleanup := fun d => d
    processError := fun _ => some Err.misconfigured }

/-- Input taking the fall-through path into a running post phase: the
pre-execution phase fails at time 1 under a non-throwing processError, the
engine returns data, and a post-execution evaluation runs. -/
def inpFallThrough : WrapperInput Nat :=
  { preEvals := [⟨1, some (Err.code 1)⟩, ⟨5, none⟩]
    engineTime := 2
    engineResult := Except.ok ⟨some 6, []⟩
    postEvals := fun _ => [⟨1, none⟩]
    cleanup := fun d => d
    processError := fun _ => none }

/-- Input whose post-execution phase fails: the single pre-execution rule
passes, the engine returns data 4, one post evaluation rejects at relative
time 2 while a sibling is still pending until relative time 9. -/
def inpPostFail : WrapperInput Nat :=
  { preEvals := [⟨1, none⟩]
    engineTime := 1
    engineResult := Except.ok ⟨some 4, []⟩
    postEvals := fun _ => [⟨2, some (Err.code 3)⟩, ⟨9, none⟩]
    cleanup := fun d => d
    processError := fun e => some e }

/-!
Claims C1 to C6 and C10 about `executeWrapper`.
-/

/-- Claim C1, counterexample: at `inpLeak` a compiled pre-execution rule
instance denies, yet the operation fulfills and its result carries data 42,
because the catch block around the pre-execution `Promise.all` falls through
when processError returns without throwing.  This refutes the claim that any
denial makes the result contain no data. -/
theorem wrapper_C1_cex :
    (allSettle inpLeak.preEvals).2.isSome = true ∧
      (executeWrapper inpLeak).result = Except.ok ⟨some 42, []⟩ := ⟨rfl, rfl⟩

/-- Claim C1 (amended): provided the configured processError function always
throws, if any compiled rule instance (pre- or post-execution) denies or
raises, the operation settles with an error and its result contains no
data, regardless of how many other instances passed. -/
theorem wrapper_denial_means_error {δ : Type} (inp : WrapperInput δ)
    (hpe : ∀ e, (inp.processError e).isSome = true)
    (hden : (allSettle inp.preEvals).2.isSome = true ∨
      ∃ r d, inp.engineResult = Except.ok r ∧ r.data = some d ∧
        (allSettle (inp.postEvals d)).2.isSome = true) :
    (∃ e, (executeWrapper inp).result = Except.error e) ∧
      finalData (executeWrapper inp).result = none := by
  have key : ∀ e2, (executeWrapper inp).result = Except.error e2 →
      (∃ e, (executeWrapper inp).result = Except.error e) ∧
        finalData (executeWrapper inp).result = none :=
    fun e2 h => ⟨⟨e2, h⟩, by rw [h]; rfl⟩
  rcases hab : preAbort inp with _ | e
  · have hpre0 : (allSettle inp.preEvals).2 = none := by
      rcases ho : (allSettle inp.preEvals).2 with _ | e
      · rfl
      · exfalso
        have h1 := hpe e
        simp [preAbort, ho] at hab
        rw [hab] at h1
        simp at h1
    rcases hden with hpre | ⟨r, d, her, hd, hpost⟩
    · rw [hpre0] at hpre; simp at hpre
    · rcases hp2 : (allSettle (inp.postEvals d)).2 with _ | e
      · rw [hp2] at hpost; simp at hpost
      · have h1 := hpe e
        rcases hpe2 : inp.processError e with _ | e2
        · rw [hpe2] at h1; simp at h1
        · exact key e2 (by
            simp [executeWrapper, hab, enginePhase, her, hd, postPhase,
              postOutcome, hp2, hpe2])
  · exact key e (by simp [executeWrapper, hab])

/-- Claim C1 witness at `inpThrower`. -/
theorem wrapper_denial_means_error_witness :
    (∃ e, (executeWrapper inpThrower).result = Except.error e) ∧
      finalData (executeWrapper inpThrower).result = none :=
  wrapper_denial_means_error inpThrower (fun _ => rfl) (Or.inl rfl)

/-- Claim C2, counterexample: at `inpLeak` a pre-execution rule instance
denies, yet the underlying engine is invoked, because processError returned
without throwing and control fell through the catch block to the engine
call.  This refutes the claim that the engine is never invoked after a
pre-execution denial. -/
theorem wrapper_C2_cex :
    (allSettle inpLeak.preEvals).2 = some (Err.code 7) ∧
      (executeWrapper inpLeak).engineCalled = true := ⟨rfl, rfl⟩

/-- Claim C2 (amended): if the pre-execution phase fails and the configured
processError throws on the reported failure, the underlying engine is never
invoked and the wrapper rejects with the thrown error. -/
theorem wrapper_preDenial_skips_engine {δ : Type} (inp : WrapperInput δ)
    (e e2 : Err)
    (hfail : (allSettle inp.preEvals).2 = some e)
    (hthrow : inp.processError e = some e2) :
    (executeWrapper inp).engineCalled = false ∧
      (executeWrapper inp).result = Except.error e2 := by
  have hab : preAbort inp = some e2 := by simp [preAbort, hfail, hthrow]
  constructor <;> simp [executeWrapper, hab]

/-- Claim C2 witness at `inpThrower`. -/
theorem wrapper_preDenial_skips_engine_witness :
    (executeWrapper inpThrower).engineCalled = false ∧
      (executeWrapper inpThrower).result = Except.error Err.misconfigured :=
  wrapper_preDenial_skips_engine inpThrower (Err.code 5) Err.misconfigured rfl rfl

/-- Claim C3, counterexample: at `inpLeak` a pipeline failure (the
pre-execution denial) is handed to processError, processError returns
without throwing, and yet the pipeline neither raises the generic
misconfigured error nor withholds data: it proceeds to the engine and
returns data 42.  This refutes the claim for pre-execution failures. -/
theorem wrapper_C3_cex :
    (allSettle inpLeak.preEvals).2 = some (Err.code 7) ∧
      inpLeak.processError (Err.code 7) = none ∧
      (executeWrapper inpLeak).result = Except.ok ⟨some 42, []⟩ ∧
      (executeWrapper inpLeak).result ≠ Except.error Err.misconfigured :=
  ⟨rfl, rfl, rfl, by
    simp [show (executeWrapper inpLeak).result = Except.ok ⟨some 42, []⟩ from rfl]⟩

/-- Claim C3 (amended): for post-execution failures the claim holds: when
the engine returned data, some post-execution evaluation failed, and the
configured processError returns without throwing, the wrapper rejects with
the generic misconfigured error rather than returning data. -/
theorem wrapper_post_misconfigured {δ : Type} (inp : WrapperInput δ)
    (r : ExecResult δ) (d : δ) (e : Err)
    (hab : preAbort inp = none)
    (her : inp.engineResult = Except.ok r)
    (hd : r.data = some d)
    (hpost : (allSettle (inp.postEvals d)).2 = some e)
    (hret : inp.processError e = none) :
    (executeWrapper inp).result = Except.error Err.misconfigured := by
  simp [executeWrapper, hab, enginePhase, her, hd, postPhase, postOutcome,
    hpost, hret]

/-- Claim C3 witness at `inpPostMiscfg`. -/
theorem wrapper_post_misconfigured_witness :
    (executeWrapper inpPostMiscfg).result = Except.error Err.misconfigured :=
  wrapper_post_misconfigured inpPostMiscfg ⟨some 3, []⟩ 3 (Err.code 9)
    rfl rfl rfl rfl rfl

/-- Claim C4, counterexample: at `inpC4` the engine is invoked at time 1
although one pre-execution evaluation rejected (so it did not complete
successfully) and its sibling is still pending until time 5, because
`Promise.all` rejected early and the non-throwing processError let control
fall through to the engine call. -/
theorem wrapper_C4_cex :
    (executeWrapper inpC4).engineCalled = true ∧
      (executeWrapper inpC4).engineCallTime = some 1 ∧
      inpC4.preEvals.any (fun ev => ev.result.isSome) = true ∧
      inpC4.preEvals.any (fun ev => decide (1 < ev.time)) = true :=
  ⟨rfl, rfl, rfl, rfl⟩

/-- Claim C4 (amended): provided the pre-execution phase fulfilled (which is
guaranteed whenever the engine is reached under a throwing processError),
every pre-execution evaluation completed successfully no later than the
moment the engine is invoked; and unconditionally — in every execution,
including the fall-through ones in which the post phase runs after a
pre-execution failure — post-execution evaluations begin only at
engine-completion time. -/
theorem wrapper_phase_ordering {δ : Type} (inp : WrapperInput δ) :
    ((allSettle inp.preEvals).2 = none →
      (executeWrapper inp).engineCallTime = some (maxSettle inp.preEvals) ∧
      (∀ ev ∈ inp.preEvals,
        ev.result = none ∧ ev.time ≤ maxSettle inp.preEvals)) ∧
    ((executeWrapper inp).postStartTime = none ∨
      (executeWrapper inp).postStartTime = (executeWrapper inp).engineDoneTime) := by
  constructor
  · intro hok
    have hab : preAbort inp = none := by simp [preAbort, hok]
    rcases allSettle_none_fst inp.preEvals hok with ⟨hfst, her⟩
    have hw : executeWrapper inp = enginePhase inp := by simp [executeWrapper, hab]
    refine ⟨?_, fun ev hm =>
      ⟨earliestRejection_none_mem inp.preEvals her ev hm,
        time_le_maxSettle inp.preEvals ev hm⟩⟩
    rw [hw, (enginePhase_times inp).2.1, hfst]
  · rcases hab : preAbort inp with _ | e
    · have hw : executeWrapper inp = enginePhase inp := by simp [executeWrapper, hab]
      rw [hw]
      exact (enginePhase_times inp).2.2.2
    · left
      simp [executeWrapper, hab]

/-- Claim C4 witness: the pre-half at `inpPassPre` (pre phase fulfilled) and
the unconditional post-half at `inpFallThrough`, an execution in which the
post phase runs although the pre phase failed. -/
theorem wrapper_phase_ordering_witness :
    (executeWrapper inpPassPre).engineCallTime = some (maxSettle inpPassPre.preEvals) ∧
      ((executeWrapper inpFallThrough).postStartTime = none ∨
        (executeWrapper inpFallThrough).postStartTime =
          (executeWrapper inpFallThrough).engineDoneTime) :=
  ⟨((wrapper_phase_ordering inpPassPre).1 rfl).1,
    (wrapper_phase_ordering inpFallThrough).2⟩

/-- Claim C5, counterexample: at `inpC5` the pre-execution phase fails at
time 1 and the failure is propagated immediately (the wrapper settles with
an error at time 1), while the passing sibling evaluation is still pending
until time 5: siblings are not awaited to settlement before the failure is
propagated, refuting the claim. -/
theorem wrapper_C5_cex :
    (executeWrapper inpC5).result = Except.error (Err.code 1) ∧
      (executeWrapper inpC5).settleTime = 1 ∧
      inpC5.preEvals.any
        (fun ev => decide ((executeWrapper inpC5).settleTime < ev.time)) = true :=
  ⟨rfl, rfl, rfl⟩

/-- Claim C5 (amended): in either phase, once any evaluation fails the
failure is propagated at the settle time of the earliest failing evaluation
of that phase; sibling evaluations still in flight at that moment are not
awaited before propagation (`Promise.all` semantics).  The first conjunct
covers the pre-execution phase (a failing pre evaluation under a throwing
processError), the second the post-execution phase (a failing post
evaluation after the engine returned data): the wrapper settles at the
earliest rejection of the phase, which is realised by a member of the phase
and bounds every rejecting member from below, with no constraint from still
pending fulfilled siblings. -/
theorem wrapper_first_failure_propagation {δ : Type} (inp : WrapperInput δ) :
    (∀ e e2, (allSettle inp.preEvals).2 = some e →
      inp.processError e = some e2 →
      (executeWrapper inp).result = Except.error e2 ∧
      (executeWrapper inp).settleTime = (allSettle inp.preEvals).1 ∧
      (∃ ev ∈ inp.preEvals,
        ev.time = (allSettle inp.preEvals).1 ∧ ev.result = some e) ∧
      (∀ ev ∈ inp.preEvals, ev.result.isSome = true →
        (allSettle inp.preEvals).1 ≤ ev.time)) ∧
    (∀ r d e, preAbort inp = none → inp.engineResult = Except.ok r →
      r.data = some d → (allSettle (inp.postEvals d)).2 = some e →
      (∃ e2, (executeWrapper inp).result = Except.error e2) ∧
      (executeWrapper inp).settleTime =
        ((allSettle inp.preEvals).1 + inp.engineTime) +
          (allSettle (inp.postEvals d)).1 ∧
      (∃ ev ∈ inp.postEvals d,
        ev.time = (allSettle (inp.postEvals d)).1 ∧ ev.result = some e) ∧
      (∀ ev ∈ inp.postEvals d, ev.result.isSome = true →
        (allSettle (inp.postEvals d)).1 ≤ ev.time)) := by
  constructor
  · intro e e2 hfail hthrow
    have hab : preAbort inp = some e2 := by simp [preAbort, hfail, hthrow]
    have hrej := allSettle_some inp.preEvals e hfail
    exact ⟨by simp [executeWrapper, hab], by simp [executeWrapper, hab],
      earliestRejection_mem inp.preEvals (allSettle inp.preEvals).1 e hrej,
      earliestRejection_min inp.preEvals (allSettle inp.preEvals).1 e hrej⟩
  · intro r d e hab her hd hfail
    have hw : executeWrapper inp =
        postPhase inp (allSettle inp.preEvals).1
          ((allSettle inp.preEvals).1 + inp.engineTime) r d := by
      simp [executeWrapper, hab, enginePhase, her, hd]
    have hrej := allSettle_some (inp.postEvals d) e hfail
    refine ⟨?_, by rw [hw]; rfl,
      earliestRejection_mem (inp.postEvals d) (allSettle (inp.postEvals d)).1 e hrej,
      earliestRejection_min (inp.postEvals d) (allSettle (inp.postEvals d)).1 e hrej⟩
    rw [hw]
    rcases hpe : inp.processError e with _ | e2
    · exact ⟨Err.misconfigured, by simp [postPhase, postOutcome, hfail, hpe]⟩
    · exact ⟨e2, by simp [postPhase, postOutcome, hfail, hpe]⟩

/-- Claim C5 witness: the pre-phase half at `inpC5` (failure propagated at
time 1 with a sibling pending until time 5) and the post-phase half at
`inpPostFail` (wrapper settles at absolute time 4, the earliest post
rejection, with a sibling pending until relative time 9). -/
theorem wrapper_first_failure_propagation_witness :
    (executeWrapper inpC5).result = Except.error (Err.code 1) ∧
      (executeWrapper inpC5).settleTime = (allSettle inpC5.preEvals).1 ∧
      (∃ e2, (executeWrapper inpPostFail).result = Except.error e2) ∧
      (executeWrapper inpPostFail).settleTime =
        ((allSettle inpPostFail.preEvals).1 + inpPostFail.engineTime) +
          (allSettle (inpPostFail.postEvals 4)).1 :=
  ⟨((wrapper_first_failure_propagation inpC5).1 (Err.code 1) (Err.code 1) rfl rfl).1,
    ((wrapper_first_failure_propagation inpC5).1 (Err.code 1) (Err.code 1) rfl rfl).2.1,
    ((wrapper_first_failure_propagation inpPostFail).2 ⟨some 4, []⟩ 4 (Err.code 3)
      rfl rfl rfl rfl).1,
    ((wrapper_first_failure_propagation inpPostFail).2 ⟨some 4, []⟩ 4 (Err.code 3)
      rfl rfl rfl rfl).2.1⟩

/-- Claim C6, counterexample: at `inpC6` the result pruner (cleanupResult)
runs at time 3, immediately after the engine completes and the post
evaluations are scheduled, while the single post-execution evaluation only
settles at absolute time 5: pruning runs concurrently with post-checking,
not strictly after every post-execution evaluation has completed. -/
theorem wrapper_C6_cex :
    (executeWrapper inpC6).cleanupTime = some 3 ∧
      ((inpC6.postEvals 5).map (fun ev => 3 + ev.time)) = [5] ∧
      ¬ (∀ t ∈ (inpC6.postEvals 5).map (fun ev => 3 + ev.time), t ≤ 3) :=
  ⟨rfl, rfl, by decide⟩

/-- Claim C6 (amended): when the engine returns data, the result pruner runs
exactly at engine-completion time, concurrently with the post-execution
evaluations (which start at that same moment); the pruned result is only
returned once all post-execution evaluations have settled successfully, and
when any of them fails the final result carries no data. -/
theorem wrapper_cleanup_timing {δ : Type} (inp : WrapperInput δ)
    (r : ExecResult δ) (d : δ)
    (hab : preAbort inp = none)
    (her : inp.engineResult = Except.ok r)
    (hd : r.data = some d) :
    (executeWrapper inp).cleanupTime = (executeWrapper inp).engineDoneTime ∧
      (executeWrapper inp).cleanupTime = (executeWrapper inp).postStartTime ∧
      ((allSettle (inp.postEvals d)).2 = none →
        (executeWrapper inp).result = Except.ok ⟨some (inp.cleanup d), r.errors⟩ ∧
        (∀ ev ∈ inp.postEvals d,
          ((allSettle inp.preEvals).1 + inp.engineTime) + ev.time ≤
            (executeWrapper inp).settleTime)) ∧
      ((allSettle (inp.postEvals d)).2.isSome = true →
        finalData (executeWrapper inp).result = none) := by
  have hw : executeWrapper inp =
      postPhase inp (allSettle inp.preEvals).1
        ((allSettle inp.preEvals).1 + inp.engineTime) r d := by
    simp [executeWrapper, hab, enginePhase, her, hd]
  refine ⟨by rw [hw]; rfl, by rw [hw]; rfl, fun hnone => ⟨?_, ?_⟩, fun hsome => ?_⟩
  · rw [hw]; simp [postPhase, postOutcome, hnone]
  · intro ev hm
    rcases allSettle_none_fst (inp.postEvals d) hnone with ⟨hfst, _⟩
    rw [hw]
    simp only [postPhase]
    rw [hfst]
    exact Nat.add_le_add_left (time_le_maxSettle (inp.postEvals d) ev hm) _
  · rcases hp : (allSettle (inp.postEvals d)).2 with _ | e
    · rw [hp] at hsome; simp at hsome
    · rw [hw]
      rcases hpe : inp.processError e with _ | e2 <;>
        simp [postPhase, postOutcome, hp, hpe, finalData]

/-- Claim C6 witness at `inpC6`. -/
theorem wrapper_cleanup_timing_witness :
    (executeWrapper inpC6).cleanupTime = (executeWrapper inpC6).engineDoneTime ∧
      (executeWrapper inpC6).result = Except.ok ⟨some 5, []⟩ :=
  ⟨(wrapper_cleanup_timing inpC6 ⟨some 5, []⟩ 5 rfl rfl rfl).1,
    ((wrapper_cleanup_timing inpC6 ⟨some 5, []⟩ 5 rfl rfl rfl).2.2.1 rfl).1⟩

/-- Claim C10: when the pre-execution phase did not abort and the engine
call itself rejects, the engine error propagates to the caller of the
wrapped execute function as-is, without being passed through the configured
processError function: the wrapper rejects with exactly the engine error at
engine-completion time, whatever processError would map it to. -/
theorem engine_error_bypasses_policy {δ : Type} (inp : WrapperInput δ) (e : Err)
    (hab : preAbort inp = none)
    (her : inp.engineResult = Except.error e) :
    (executeWrapper inp).result = Except.error e ∧
      (executeWrapper inp).settleTime = (allSettle inp.preEvals).1 + inp.engineTime := by
  constructor <;> simp [executeWrapper, hab, enginePhase, her]

/-- Claim C10 witness at `inpEngineErr`: the engine error code 9 propagates
although the configured processError would have translated it to the
misconfigured error. -/
theorem engine_error_bypasses_policy_witness :
    (executeWrapper inpEngineErr).result = Except.error (Err.code 9) ∧
      (executeWrapper inpEngineErr).settleTime = 5 :=
  ⟨(engine_error_bypasses_policy inpEngineErr (Err.code 9) rfl rfl).1,
    (engine_error_bypasses_policy inpEngineErr (Err.code 9) rfl rfl).2⟩

/-!
Part 2 models the components of the pipeline that the orchestrator calls but
whose sources are not part of this tree: the rules compiler, the
post-execution rule executor and the result cleaner.  They are modelled from
the specification.  Result data is a tree of values; a selection tree node
carries the field name and the resolved (list/null-unwrapped) return type
name of the field.  Mutual inductives are used instead of `List` so that all
recursions and induction proofs are structural.
-/

mutual
/-- Modelled from the spec (section 3, data model): a node of the result
tree returned by the engine: null, a scalar leaf, an object tagged with its
concrete type name, or a list of values (lists nest to arbitrary depth). -/
inductive Value where
  | null : Value
  | scalar : Nat → Value
  | obj : String → Fields → Value
  | arr : Elems → Value

/-- Fields of a result object, in result order: pairs of field name and
value. -/
inductive Fields where
  | fnil : Fields
  | fcons : String → Value → Fields → Fields

/-- Elements of a result list. -/
inductive Elems where
  | enil : Elems
  | econs : Value → Elems → Elems
end

mutual
/-- Modelled from the spec (section 2/4.2): a field of a selection tree:
field name, resolved return type name (unwrapped through list and nullable
wrappers), and nested sub-selections. -/
inductive Sel where
  | mk : String → String → Sels → Sel

/-- A selection set: an ordered list of selection fields. -/
inductive Sels where
  | snil : Sels
  | scons : Sel → Sels → Sels
end

/-- Name of a selection field. -/
def selName : Sel → String
  | Sel.mk f _ _ => f

/-- Names of a selection set, in order. -/
def selNames : Sels → List String
  | Sels.snil => []
  | Sels.scons s rest => selName s :: selNames rest

/-- Names of a result object, in order. -/
def fieldNames : Fields → List String
  | Fields.fnil => []
  | Fields.fcons f _ rest => f :: fieldNames rest

/-- Number of elements of a result list. -/
def elemsLen : Elems → Nat
  | Elems.enil => 0
  | Elems.econs _ es => 1 + elemsLen es

/-- Whether every selection set nested inside the given one has pairwise
distinct field names (checked per level). -/
def ssNodup : Sels → Bool
  | Sels.snil => true
  | Sels.scons (Sel.mk _ _ ss) rest =>
    decide (selNames ss).Nodup && ssNodup ss && ssNodup rest

/-- Whether the given selection set and every selection set nested inside it
have pairwise distinct field names. -/
def selsDistinct (ss : Sels) : Bool :=
  decide (selNames ss).Nodup && ssNodup ss

mutual
/-- Modelled from the spec (section 3, invariants; section 4.2): conformance
of a result value to a field position with resolved type name `ty` and
sub-selections `ss`, relative to the set `O` of object type names of the
schema: null conforms anywhere, a list conforms when every element does, a
scalar sits only at positions whose resolved type is not an object type, and
an object carries exactly the declared type name and mirrors the
sub-selections field by field, in order. -/
def vConf (O : List String) : String → Sels → Value → Bool
  | _, _, Value.null => true
  | ty, ss, Value.arr es => esConf O ty ss es
  | ty, _, Value.scalar _ => decide (ty ∉ O)
  | ty, ss, Value.obj ty2 flds =>
    decide (ty2 = ty) && decide (ty ∈ O) && fConf O flds ss

/-- Conformance of every element of a result list. -/
def esConf (O : List String) : String → Sels → Elems → Bool
  | _, _, Elems.enil => true
  | ty, ss, Elems.econs v es => vConf O ty ss v && esConf O ty ss es

/-- Conformance of a result object to a selection set: same field names in
the same order, each value conforming to its selection field. -/
def fConf (O : List String) : Fields → Sels → Bool
  | Fields.fnil, Sels.snil => true
  | Fields.fcons f v rest, Sels.scons (Sel.mk f2 ty ss) rest2 =>
    decide (f = f2) && vConf O ty ss v && fConf O rest rest2
  | _, _ => false
end

mutual
/-- Number of non-null concrete occurrences of type `T` in a result value:
one per object node tagged `T`, at any nesting depth. -/
def occV (T : String) : Value → Nat
  | Value.null => 0
  | Value.scalar _ => 0
  | Value.arr es => occE T es
  | Value.obj ty flds => (if ty = T then 1 else 0) + occF T flds

/-- Occurrences of type `T` inside the elements of a result list. -/
def occE (T : String) : Elems → Nat
  | Elems.enil => 0
  | Elems.econs v es => occV T v + occE T es

/-- Occurrences of type `T` inside the values of a result object. -/
def occF (T : String) : Fields → Nat
  | Fields.fnil => 0
  | Fields.fcons _ v rest => occV T v + occF T rest
end

/-- Modelled from the spec (section 4.2, query compiler): the selection
paths of all compiled post-instances of a rule bound to type `T`: one path
per field location whose resolved return type is `T`, recursing into nested
selection sets. -/
def pathsTo (T : String) : Sels → List (List String)
  | Sels.snil => []
  | Sels.scons (Sel.mk f ty ss) rest =>
    (if ty = T then [[f]] else []) ++
      (pathsTo T ss).map (fun p => f :: p) ++ pathsTo T rest

mutual
/-- Modelled from the spec (section 4.4, rule executor): resolving a
selection path against result data, fanning out through list boundaries at
any depth, skipping null values and absent fields without error, and
collecting the concrete occurrences at the end of the path. -/
def resolveV : List String → Value → List Value
  | _, Value.null => []
  | p, Value.arr es => resolveE p es
  | [], v => [v]
  | _ :: _, Value.scalar _ => []
  | f :: p, Value.obj _ flds => resolveF f p flds

/-- Path resolution distributed over the elements of a result list. -/
def resolveE : List String → Elems → List Value
  | _, Elems.enil => []
  | p, Elems.econs v es => resolveV p v ++ resolveE p es

/-- Path resolution through the named field of a result object; an absent
field resolves to no occurrences. -/
def resolveF : String → List String → Fields → List Value
  | _, _, Fields.fnil => []
  | f, p, Fields.fcons g v rest => if g = f then resolveV p v else resolveF f p rest
end

/-- Resolution of a compiled selection path against the root result object
(paths produced by `pathsTo` are never empty). -/
def resolveAt : List String → Fields → List Value
  | [], _ => []
  | f :: p, flds => resolveF f p flds

/-- Modelled from the spec (section 4.4): the total number of evaluations of
a post rule bound to type `T` over the given result: one evaluation per
occurrence resolved from any compiled path of the rule. -/
def numEvals (T : String) (sel : Sels) (flds : Fields) : Nat :=
  ((pathsTo T sel).map (fun p => (resolveAt p flds).length)).sum

/-- Whether a result value is the null value. -/
def isNull : Value → Bool
  | Value.null => true
  | _ => false

/-- The list of all object values a post rule bound to `T` is evaluated
against: the concatenation of the resolutions of all its compiled paths. -/
def evalTargets (T : String) (sel : Sels) (flds : Fields) : List Value :=
  ((pathsTo T sel).map (fun p => resolveAt p flds)).flatten

/-- Sum of a pointwise-zero map is zero. -/
theorem sum_map_zeroL {α : Type} (l : List α) (f : α → Nat)
    (h : ∀ a ∈ l, f a = 0) : (l.map f).sum = 0 := by
  induction l with
  | nil => rfl
  | cons a l ih =>
    simp only [List.map_cons, List.sum_cons,
      h a (List.mem_cons_self a l),
      ih (fun b hb => h b (List.mem_cons_of_mem a hb))]

/-- Sum of a pointwise sum of maps splits. -/
theorem sum_map_addL {α : Type} (l : List α) (f g : α → Nat) :
    (l.map (fun x => f x + g x)).sum = (l.map f).sum + (l.map g).sum := by
  induction l with
  | nil => rfl
  | cons a l ih => simp only [List.map_cons, List.sum_cons, ih]; omega

/-- Sums of pointwise-equal maps agree. -/
theorem sum_map_congrL {α : Type} (l : List α) (f g : α → Nat)
    (h : ∀ a ∈ l, f a = g a) : (l.map f).sum = (l.map g).sum := by
  induction l with
  | nil => rfl
  | cons a l ih =>
    simp only [List.map_cons, List.sum_cons,
      h a (List.mem_cons_self a l),
      ih (fun b hb => h b (List.mem_cons_of_mem a hb))]

/-- Every compiled path starts with a field name of the selection set it was
compiled from; in particular compiled paths are never empty. -/
theorem pathsTo_shape (T : String) :
    ∀ (sl : Sels), ∀ p ∈ pathsTo T sl,
      ∃ g p2, p = g :: p2 ∧ g ∈ selNames sl
  | Sels.snil => by simp [pathsTo]
  | Sels.scons (Sel.mk f ty ss) rest => by
    intro p hp
    simp only [pathsTo] at hp
    rcases List.mem_append.mp hp with h12 | h3
    · rcases List.mem_append.mp h12 with h1 | h2
      · by_cases hT : ty = T
        · rw [if_pos hT] at h1
          simp only [List.mem_singleton] at h1
          exact ⟨f, [], h1, by simp [selNames, selName]⟩
        · rw [if_neg hT] at h1
          cases h1
      · rcases List.mem_map.mp h2 with ⟨q, _, hq⟩
        exact ⟨f, q, hq.symm, by simp [selNames, selName]⟩
    · rcases pathsTo_shape T rest p h3 with ⟨g, p2, hp2, hg⟩
      exact ⟨g, p2, hp2, by
        simp only [selNames, selName, List.mem_cons]; exact Or.inr hg⟩


mutual
/-- For a conforming value sitting at a field position of resolved type
`ty`, the evaluations of a post rule bound to `T` against that value (one
for the position itself when `ty = T`, plus one per occurrence resolved from
any compiled path of the nested selection set) number exactly the
occurrences of `T` inside the value. -/
theorem lemV (O : List String) (T ty : String) (ss : Sels) (v : Value)
    (hT : T ∈ O) (hc : vConf O ty ss v = true) (hd : selsDistinct ss = true) :
    (if ty = T then (resolveV [] v).length else 0) +
      ((pathsTo T ss).map (fun p => (resolveV p v).length)).sum = occV T v := by
  cases v with
  | null =>
    have hz : ((pathsTo T ss).map (fun p => (resolveV p Value.null).length)).sum = 0 :=
      sum_map_zeroL _ _ (fun p _ => by cases p <;> rfl)
    rw [hz]
    have h0 : (resolveV [] Value.null).length = 0 := rfl
    rw [h0]
    simp [occV]
  | scalar n =>
    have hno : ty ∉ O := by simpa [vConf] using hc
    have hne : ty ≠ T := fun h => hno (h ▸ hT)
    have hz : ((pathsTo T ss).map (fun p => (resolveV p (Value.scalar n)).length)).sum = 0 := by
      apply sum_map_zeroL
      intro p hp
      rcases pathsTo_shape T ss p hp with ⟨g, p2, hp2, _⟩
      rw [hp2]
      rfl
    rw [if_neg hne, hz]
    simp [occV]
  | arr es =>
    have hce : esConf O ty ss es = true := by simpa [vConf] using hc
    have he := lemE O T ty ss es hT hce hd
    have harr : ∀ p, resolveV p (Value.arr es) = resolveE p es :=
      fun p => by cases p <;> rfl
    simp only [harr]
    have hocc : occV T (Value.arr es) = occE T es := rfl
    rw [hocc]
    exact he
  | obj ty2 flds =>
    have hc2 : (ty2 = ty ∧ ty ∈ O) ∧ fConf O flds ss = true := by
      simpa [vConf, Bool.and_eq_true, decide_eq_true_eq] using hc
    rcases hc2 with ⟨⟨hty2, _⟩, hcf⟩
    have hres : ∀ p ∈ pathsTo T ss,
        (resolveV p (Value.obj ty2 flds)).length = (resolveAt p flds).length := by
      intro p hp
      rcases pathsTo_shape T ss p hp with ⟨g, p2, hp2, _⟩
      rw [hp2]
      rfl
    rw [sum_map_congrL _ _ _ hres, lemF O T flds ss hT hcf hd]
    subst hty2
    have h1 : (resolveV [] (Value.obj ty2 flds)).length = 1 := rfl
    rw [h1]
    simp [occV]

/-- Element-wise version of `lemV` for list values. -/
theorem lemE (O : List String) (T ty : String) (ss : Sels) (es : Elems)
    (hT : T ∈ O) (hc : esConf O ty ss es = true) (hd : selsDistinct ss = true) :
    (if ty = T then (resolveE [] es).length else 0) +
      ((pathsTo T ss).map (fun p => (resolveE p es).length)).sum = occE T es := by
  cases es with
  | enil =>
    have h0 : ∀ p, resolveE p Elems.enil = [] := fun p => by cases p <;> rfl
    have hz : ((pathsTo T ss).map (fun p => (resolveE p Elems.enil).length)).sum = 0 :=
      sum_map_zeroL _ _ (fun p _ => by rw [h0]; rfl)
    rw [hz, h0]
    simp [occE]
  | econs v es2 =>
    have hc2 : vConf O ty ss v = true ∧ esConf O ty ss es2 = true := by
      simpa [esConf, Bool.and_eq_true] using hc
    have hv := lemV O T ty ss v hT hc2.1 hd
    have he := lemE O T ty ss es2 hT hc2.2 hd
    have hsplit : ∀ p, (resolveE p (Elems.econs v es2)).length =
        (resolveV p v).length + (resolveE p es2).length := by
      intro p
      have h4 : resolveE p (Elems.econs v es2) = resolveV p v ++ resolveE p es2 := by
        cases p <;> rfl
      rw [h4, List.length_append]
    rw [sum_map_congrL (pathsTo T ss)
        (fun p => (resolveE p (Elems.econs v es2)).length)
        (fun p => (resolveV p v).length + (resolveE p es2).length)
        (fun p _ => hsplit p)]
    rw [sum_map_addL (pathsTo T ss) (fun p => (resolveV p v).length)
        (fun p => (resolveE p es2).length)]
    rw [hsplit []]
    have hocc : occE T (Elems.econs v es2) = occV T v + occE T es2 := rfl
    rw [hocc]
    by_cases hty : ty = T
    · simp only [if_pos hty] at hv he ⊢
      omega
    · simp only [if_neg hty] at hv he ⊢
      omega

/-- Object-level version of `lemV`: over a conforming result object, the
total path-resolved evaluation count of a rule bound to `T` equals the
number of occurrences of `T` inside the object fields. -/
theorem lemF (O : List String) (T : String) (flds : Fields) (sl : Sels)
    (hT : T ∈ O) (hc : fConf O flds sl = true) (hd : selsDistinct sl = true) :
    ((pathsTo T sl).map (fun p => (resolveAt p flds).length)).sum = occF T flds := by
  cases flds with
  | fnil =>
    cases sl with
    | snil => simp [pathsTo, occF]
    | scons s rest2 =>
      cases s with
      | mk f2 ty ss => simp [fConf] at hc
  | fcons f v frest =>
    cases sl with
    | snil => simp [fConf] at hc
    | scons s rest2 =>
      cases s with
      | mk f2 ty ss =>
        have hc2 : (f = f2 ∧ vConf O ty ss v = true) ∧ fConf O frest rest2 = true := by
          simpa [fConf, Bool.and_eq_true, decide_eq_true_eq] using hc
        rcases hc2 with ⟨⟨hf, hcv⟩, hcf⟩
        have hd1 : (f2 ∉ selNames rest2 ∧ (selNames rest2).Nodup) ∧
            ((selNames ss).Nodup ∧ ssNodup ss = true) ∧ ssNodup rest2 = true := by
          have h1 : (selNames (Sels.scons (Sel.mk f2 ty ss) rest2)).Nodup ∧
              ssNodup (Sels.scons (Sel.mk f2 ty ss) rest2) = true := by
            simpa [selsDistinct, Bool.and_eq_true, decide_eq_true_eq] using hd
          rcases h1 with ⟨hnod, hss⟩
          simp only [selNames, selName, List.nodup_cons] at hnod
          simp only [ssNodup, Bool.and_eq_true, decide_eq_true_eq] at hss
          exact ⟨hnod, ⟨hss.1.1, hss.1.2⟩, hss.2⟩
        rcases hd1 with ⟨⟨hf2notin, hnodrest⟩, ⟨hnodss, hssss⟩, hssrest⟩
        have hdss : selsDistinct ss = true := by
          simp only [selsDistinct, Bool.and_eq_true, decide_eq_true_eq]
          exact ⟨hnodss, hssss⟩
        have hdrest : selsDistinct rest2 = true := by
          simp only [selsDistinct, Bool.and_eq_true, decide_eq_true_eq]
          exact ⟨hnodrest, hssrest⟩
        have hv := lemV O T ty ss v hT hcv hdss
        have hrest := lemF O T frest rest2 hT hcf hdrest
        have h2 : ((pathsTo T ss).map
              (fun p => (resolveAt (f2 :: p) (Fields.fcons f v frest)).length)).sum
            = ((pathsTo T ss).map (fun p => (resolveV p v).length)).sum := by
          apply sum_map_congrL
          intro p _
          simp [resolveAt, resolveF, hf]
        have h3 : ((pathsTo T rest2).map
              (fun p => (resolveAt p (Fields.fcons f v frest)).length)).sum
            = ((pathsTo T rest2).map (fun p => (resolveAt p frest).length)).sum := by
          apply sum_map_congrL
          intro p hp
          rcases pathsTo_shape T rest2 p hp with ⟨g, p2, hp2, hg⟩
          rw [hp2]
          have hne : ¬ (f = g) := by
            intro h
            rw [hf] at h
            exact hf2notin (by rw [h]; exact hg)
          simp [resolveAt, resolveF, hne]
        have hocc : occF T (Fields.fcons f v frest) = occV T v + occF T frest := rfl
        simp only [pathsTo, List.map_append, List.sum_append, List.map_map,
          Function.comp_def]
        rw [hocc]
        by_cases hty : ty = T
        · simp only [if_pos hty] at hv ⊢
          have h1 : (resolveAt [f2] (Fields.fcons f v frest)).length =
              (resolveV [] v).length := by
            simp [resolveAt, resolveF, hf]
          simp only [List.map_cons, List.map_nil, List.sum_cons, List.sum_nil, h1]
          rw [h2, h3, hrest]
          omega
        · simp only [if_neg hty] at hv ⊢
          simp only [List.map_nil, List.sum_nil]
          rw [h2, h3, hrest]
          omega
end

/-- Claim C7: for every post-execution rule bound to a type `T` and every
conforming result tree, the rule is evaluated exactly once per non-null
concrete occurrence of `T` in that result, including occurrences nested
inside lists of arbitrary depth, and zero times for occurrences that are
null or inside empty or null lists (such positions contribute no occurrence
and no evaluation). -/
theorem postRule_eval_count (O : List String) (T : String) (sel : Sels)
    (flds : Fields) (hT : T ∈ O) (hc : fConf O flds sel = true)
    (hd : selsDistinct sel = true) :
    numEvals T sel flds = occF T flds :=
  lemF O T flds sel hT hc hd

/-- Object type names of the demo schema of the list tests. -/
def demoO : List String := ["Query", "User", "Post", "Like"]

/-- Selection of a Like: its id field. -/
def likeSel : Sels := Sels.scons (Sel.mk "id" "ID" Sels.snil) Sels.snil

/-- Selection of a Post: its id field. -/
def postSel : Sels := Sels.scons (Sel.mk "id" "ID" Sels.snil) Sels.snil

/-- Selection of a User: likesListOfLists and posts, as in the
list-of-lists test query. -/
def userSel : Sels :=
  Sels.scons (Sel.mk "likesListOfLists" "Like" likeSel)
    (Sels.scons (Sel.mk "posts" "Post" postSel) Sels.snil)

/-- Root selection of the list-of-lists test query. -/
def demoSel : Sels :=
  Sels.scons (Sel.mk "userWithPostsAndLikesListOfLists" "User" userSel) Sels.snil

/-- A Like object with the given id. -/
def mkLike (n : Nat) : Value :=
  Value.obj "Like" (Fields.fcons "id" (Value.scalar n) Fields.fnil)

/-- The 1 x 2 x 2 likesListOfLists mock of the passing list-of-lists test:
four concrete Like objects behind three levels of list nesting. -/
def demoLikes : Value :=
  Value.arr (Elems.econs (Value.arr (Elems.econs
    (Value.arr (Elems.econs (mkLike 1) (Elems.econs (mkLike 2) Elems.enil)))
    (Elems.econs
      (Value.arr (Elems.econs (mkLike 3) (Elems.econs (mkLike 4) Elems.enil)))
      Elems.enil))) Elems.enil)

/-- The mock User of the passing list-of-lists test. -/
def demoUser : Value :=
  Value.obj "User" (Fields.fcons "likesListOfLists" demoLikes
    (Fields.fcons "posts"
      (Value.arr (Elems.econs
        (Value.obj "Post" (Fields.fcons "id" (Value.scalar 7) Fields.fnil))
        Elems.enil)) Fields.fnil))

/-- The root result data of the passing list-of-lists test. -/
def demoFields : Fields :=
  Fields.fcons "userWithPostsAndLikesListOfLists" demoUser Fields.fnil

/-- Claim C7 witness: over the list-of-lists demo response the rule bound to
Like is evaluated exactly as often as Like occurs, namely 4 times. -/
theorem postRule_eval_count_witness :
    numEvals "Like" demoSel demoFields = occF "Like" demoFields ∧
      occF "Like" demoFields = 4 :=
  ⟨postRule_eval_count demoO "Like" demoSel demoFields (by decide) rfl rfl, rfl⟩

mutual
/-- Resolving any path against any value never yields the null value:
traversal skips nulls instead of collecting them. -/
theorem resolveV_no_null (p : List String) (v : Value) :
    ∀ x ∈ resolveV p v, isNull x = false := by
  cases v with
  | null =>
    intro x hx
    have h0 : resolveV p Value.null = [] := by cases p <;> rfl
    rw [h0] at hx
    cases hx
  | scalar n =>
    intro x hx
    cases p with
    | nil =>
      have h0 : resolveV [] (Value.scalar n) = [Value.scalar n] := rfl
      rw [h0] at hx
      have hx2 := List.mem_singleton.mp hx
      rw [hx2]
      rfl
    | cons f p2 =>
      have h0 : resolveV (f :: p2) (Value.scalar n) = [] := rfl
      rw [h0] at hx
      cases hx
  | arr es =>
    intro x hx
    have h0 : resolveV p (Value.arr es) = resolveE p es := by cases p <;> rfl
    rw [h0] at hx
    exact resolveE_no_null p es x hx
  | obj ty flds =>
    intro x hx
    cases p with
    | nil =>
      have h0 : resolveV [] (Value.obj ty flds) = [Value.obj ty flds] := rfl
      rw [h0] at hx
      have hx2 := List.mem_singleton.mp hx
      rw [hx2]
      rfl
    | cons f p2 =>
      have h0 : resolveV (f :: p2) (Value.obj ty flds) = resolveF f p2 flds := rfl
      rw [h0] at hx
      exact resolveF_no_null f p2 flds x hx

/-- Element-wise version of `resolveV_no_null`. -/
theorem resolveE_no_null (p : List String) (es : Elems) :
    ∀ x ∈ resolveE p es, isNull x = false := by
  cases es with
  | enil =>
    intro x hx
    have h0 : resolveE p Elems.enil = [] := by cases p <;> rfl
    rw [h0] at hx
    cases hx
  | econs v es2 =>
    intro x hx
    have h0 : resolveE p (Elems.econs v es2) = resolveV p v ++ resolveE p es2 := by
      cases p <;> rfl
    rw [h0] at hx
    rcases List.mem_append.mp hx with h | h
    · exact resolveV_no_null p v x h
    · exact resolveE_no_null p es2 x h

/-- Field-lookup version of `resolveV_no_null`. -/
theorem resolveF_no_null (f : String) (p : List String) (flds : Fields) :
    ∀ x ∈ resolveF f p flds, isNull x = false := by
  cases flds with
  | fnil =>
    intro x hx
    have h0 : resolveF f p Fields.fnil = [] := rfl
    rw [h0] at hx
    cases hx
  | fcons g v rest =>
    intro x hx
    have h0 : resolveF f p (Fields.fcons g v rest) =
        if g = f then resolveV p v else resolveF f p rest := rfl
    rw [h0] at hx
    by_cases hgf : g = f
    · rw [if_pos hgf] at hx
      exact resolveV_no_null p v x hx
    · rw [if_neg hgf] at hx
      exact resolveF_no_null f p rest x hx
end

/-- Length of a flattened list of lists is the sum of the lengths. -/
theorem flatten_length_sum {α : Type} (l : List (List α)) :
    l.flatten.length = (l.map List.length).sum := by
  induction l with
  | nil => rfl
  | cons a l ih => simp [List.flatten_cons, ih]

/-- The number of values a rule is evaluated against equals the compiled
evaluation count. -/
theorem evalTargets_length (T : String) (sel : Sels) (flds : Fields) :
    (evalTargets T sel flds).length = numEvals T sel flds := by
  rw [evalTargets, numEvals, flatten_length_sum, List.map_map]
  rfl

/-- No value a post rule is evaluated against is null. -/
theorem evalTargets_no_null (T : String) (sel : Sels) (flds : Fields) :
    (evalTargets T sel flds).all (fun x => !(isNull x)) = true := by
  rw [List.all_eq_true]
  intro x hx
  rcases List.mem_flatten.mp hx with ⟨l, hl, hxl⟩
  rcases List.mem_map.mp hl with ⟨p, _, hpl⟩
  rw [← hpl] at hxl
  cases p with
  | nil =>
    rw [show resolveAt ([] : List String) flds = [] from rfl] at hxl
    cases hxl
  | cons f p2 =>
    have h1 := resolveF_no_null f p2 flds x hxl
    simp [h1]

/-- Modelled from the spec (section 4.4): the evaluations scheduled for an
always-denying post rule bound to `T`: one rejecting evaluation per resolved
occurrence. -/
def denyEvals (T : String) (sel : Sels) (flds : Fields) : List TimedEval :=
  (evalTargets T sel flds).map (fun _ => ⟨0, some (Err.code 0)⟩)

/-- Wrapper input induced by a response `flds` and an always-denying post
rule bound to `T`: no pre-execution rules, an engine that fulfills with the
response, and the denying evaluations scheduled per occurrence. -/
def zeroOccInput (T : String) (sel : Sels) (flds : Fields) : WrapperInput Fields :=
  { preEvals := []
    engineTime := 1
    engineResult := Except.ok ⟨some flds, []⟩
    postEvals := fun f => denyEvals T sel f
    cleanup := fun d => d
    processError := fun e => some e }

/-- Claim C8: a post-execution rule instance is never evaluated against a
null value (traversal skips nulls and empty lists without error), and when a
type bound to an always-denying rule has zero non-null occurrences in the
response, no evaluation is scheduled at all and the operation succeeds. -/
theorem postRule_null_skip (O : List String) (T : String) (sel : Sels)
    (flds : Fields) (hT : T ∈ O) (hc : fConf O flds sel = true)
    (hd : selsDistinct sel = true) (hocc : occF T flds = 0) :
    (evalTargets T sel flds).all (fun x => !(isNull x)) = true ∧
      denyEvals T sel flds = [] ∧
      (executeWrapper (zeroOccInput T sel flds)).result =
        Except.ok ⟨some flds, []⟩ := by
  have hlen : (evalTargets T sel flds).length = 0 := by
    rw [evalTargets_length]
    rw [show numEvals T sel flds = occF T flds from lemF O T flds sel hT hc hd]
    exact hocc
  have hnil : evalTargets T sel flds = [] := List.length_eq_zero.mp hlen
  have hdeny : denyEvals T sel flds = [] := by rw [denyEvals, hnil]; rfl
  refine ⟨evalTargets_no_null T sel flds, hdeny, ?_⟩
  simp [executeWrapper, preAbort, enginePhase, zeroOccInput, postPhase,
    postOutcome, hdeny, allSettle, earliestRejection, maxSettle]

/-- Object type names of the empty-lists demo schema. -/
def demoO2 : List String := ["User", "Post", "Like", "Comment"]

/-- Selection of the userLikes test query: userWithLikes with nested likes,
post, comments selections. -/
def emptySel : Sels :=
  Sels.scons (Sel.mk "userWithLikes" "User"
    (Sels.scons (Sel.mk "likes" "Like"
      (Sels.scons (Sel.mk "post" "Post"
        (Sels.scons (Sel.mk "comments" "Comment"
          (Sels.scons (Sel.mk "id" "ID" Sels.snil) Sels.snil)) Sels.snil))
        Sels.snil)) Sels.snil)) Sels.snil

/-- The mock response of the userLikes test: likes is the empty list. -/
def emptyFields : Fields :=
  Fields.fcons "userWithLikes"
    (Value.obj "User"
      (Fields.fcons "likes" (Value.arr Elems.enil) Fields.fnil)) Fields.fnil

/-- Claim C8 witness: with an empty likes list the always-denying rule bound
to Like schedules no evaluation and the operation succeeds. -/
theorem postRule_null_skip_witness :
    denyEvals "Like" emptySel emptyFields = [] ∧
      (executeWrapper (zeroOccInput "Like" emptySel emptyFields)).result =
        Except.ok ⟨some emptyFields, []⟩ :=
  ⟨(postRule_null_skip demoO2 "Like" emptySel emptyFields (by decide)
      rfl rfl rfl).2.1,
    (postRule_null_skip demoO2 "Like" emptySel emptyFields (by decide)
      rfl rfl rfl).2.2⟩

/-- Sub-selections of the first selection field with the given name, if
any. -/
def findSel (f : String) : Sels → Option Sels
  | Sels.snil => none
  | Sels.scons (Sel.mk g _ ss) rest => if g = f then some ss else findSel f rest

mutual
/-- Modelled from the spec (section 4.5, result pruner): walk the original
(pre-augmentation) selection tree in parallel with the result data, keeping
the fields present in the original tree (recursing into their nested
selections) and dropping every other field; lists are walked element-wise
and null passes through unchanged. -/
def pruneV (sl : Sels) : Value → Value
  | Value.null => Value.null
  | Value.scalar n => Value.scalar n
  | Value.arr es => Value.arr (pruneE sl es)
  | Value.obj ty flds => Value.obj ty (pruneF sl flds)

/-- Element-wise pruning of a result list. -/
def pruneE (sl : Sels) : Elems → Elems
  | Elems.enil => Elems.enil
  | Elems.econs v es => Elems.econs (pruneV sl v) (pruneE sl es)

/-- Pruning of a result object: a field is kept exactly when the original
selection set contains a field of that name. -/
def pruneF (sl : Sels) : Fields → Fields
  | Fields.fnil => Fields.fnil
  | Fields.fcons f v rest =>
    match findSel f sl with
    | some ss => Fields.fcons f (pruneV ss v) (pruneF sl rest)
    | none => pruneF sl rest
end

/-- Modelled from the spec (section 4.3, selection augmentor): the original
selection tree is an order-preserving sub-tree of the augmented one: every
original field occurs in the augmented set, in the original relative order,
with the same resolved type and with recursively sub-selected fields; the
augmented set may interleave additional (injected) fields anywhere. -/
def subsel : Sels → Sels → Bool
  | Sels.snil, _ => true
  | Sels.scons _ _, Sels.snil => false
  | Sels.scons (Sel.mk f ty ss) rest, Sels.scons (Sel.mk f2 ty2 ss2) rest2 =>
    if f = f2 then decide (ty = ty2) && subsel ss ss2 && subsel rest rest2
    else subsel (Sels.scons (Sel.mk f ty ss) rest) rest2

/-- Field names of a sub-selection are field names of the whole selection. -/
theorem subsel_names_sub : ∀ (a b : Sels), subsel a b = true →
    ∀ g ∈ selNames a, g ∈ selNames b
  | Sels.snil, _, _ => by intro g hg; simp [selNames] at hg
  | Sels.scons (Sel.mk f ty ss) rest, Sels.snil, h => by simp [subsel] at h
  | Sels.scons (Sel.mk f ty ss) rest, Sels.scons (Sel.mk f2 ty2 ss2) rest2, h => by
    intro g hg
    by_cases hf : f = f2
    · have h2 : subsel rest rest2 = true := by
        simp [subsel, hf] at h
        exact h.2
      simp only [selNames, selName, List.mem_cons] at hg ⊢
      rcases hg with hgf | hgrest
      · exact Or.inl (by rw [hgf, hf])
      · exact Or.inr (subsel_names_sub rest rest2 h2 g hgrest)
    · have h2 : subsel (Sels.scons (Sel.mk f ty ss) rest) rest2 = true := by
        simp only [subsel, if_neg hf] at h
        exact h
      have h3 := subsel_names_sub (Sels.scons (Sel.mk f ty ss) rest) rest2 h2 g hg
      simp only [selNames, selName, List.mem_cons]
      exact Or.inr h3

/-- A name absent from a selection set is not found in it. -/
theorem findSel_none (f : String) : ∀ (sl : Sels),
    f ∉ selNames sl → findSel f sl = none
  | Sels.snil, _ => rfl
  | Sels.scons (Sel.mk g ty ss) rest, h => by
    have h2 : ¬ (f = g ∨ f ∈ selNames rest) := by
      intro hor
      apply h
      simp only [selNames, selName, List.mem_cons]
      exact hor
    have hgf : ¬ (g = f) := fun hq => h2 (Or.inl hq.symm)
    have hrest : f ∉ selNames rest := fun hm => h2 (Or.inr hm)
    simp only [findSel, if_neg hgf]
    exact findSel_none f rest hrest

/-- Pruning against a selection whose head name occurs nowhere in the
result fields ignores that head. -/
theorem pruneF_skip (g ty0 : String) (ss0 rest0 : Sels) :
    ∀ (flds : Fields), (∀ f2 ∈ fieldNames flds, f2 ≠ g) →
      pruneF (Sels.scons (Sel.mk g ty0 ss0) rest0) flds = pruneF rest0 flds
  | Fields.fnil, _ => rfl
  | Fields.fcons f v rest, h => by
    have hfg : ¬ (g = f) := by
      intro hq
      exact (h f (by simp [fieldNames])) hq.symm
    have hrest := pruneF_skip g ty0 ss0 rest0 rest
      (fun f2 hm => h f2 (by
        simp only [fieldNames, List.mem_cons]
        exact Or.inr hm))
    rcases hfind : findSel f rest0 with _ | ss <;>
      simp [pruneF, findSel, if_neg hfg, hfind, hrest]

/-- Conforming result objects carry exactly the selected field names, in
selection order. -/
theorem fConf_names (O : List String) : ∀ (flds : Fields) (sl : Sels),
    fConf O flds sl = true → fieldNames flds = selNames sl
  | Fields.fnil, Sels.snil, _ => rfl
  | Fields.fnil, Sels.scons s rest, h => by
    cases s with
    | mk f ty ss => simp [fConf] at h
  | Fields.fcons f v rest, Sels.snil, h => by simp [fConf] at h
  | Fields.fcons f v rest, Sels.scons (Sel.mk f2 ty ss) rest2, h => by
    have h2 : (f = f2 ∧ vConf O ty ss v = true) ∧ fConf O rest rest2 = true := by
      simpa [fConf, Bool.and_eq_true, decide_eq_true_eq] using h
    simp only [fieldNames, selNames, selName]
    rw [h2.1.1, fConf_names O rest rest2 h2.2]

mutual
/-- Pruning a value conforming to the augmented selection set against the
original sub-selection yields a value conforming to the original set. -/
theorem pruneV_conf (O : List String) (ty : String) (ss1 ss0 : Sels) (v : Value)
    (hc : vConf O ty ss1 v = true) (hs : subsel ss0 ss1 = true)
    (hd : selsDistinct ss1 = true) :
    vConf O ty ss0 (pruneV ss0 v) = true := by
  cases v with
  | null => rfl
  | scalar n =>
    have h1 : decide (ty ∉ O) = true := by simpa [vConf] using hc
    simp only [pruneV, vConf]
    exact h1
  | arr es =>
    have hce : esConf O ty ss1 es = true := by simpa [vConf] using hc
    have h1 := pruneE_conf O ty ss1 ss0 es hce hs hd
    simp only [pruneV, vConf]
    exact h1
  | obj ty2 flds =>
    have hc2 : (ty2 = ty ∧ ty ∈ O) ∧ fConf O flds ss1 = true := by
      simpa [vConf, Bool.and_eq_true, decide_eq_true_eq] using hc
    rcases hc2 with ⟨⟨hty2, htyO⟩, hcf⟩
    have hpf := pruneF_conf O flds ss1 ss0 hcf hs hd
    simp only [pruneV, vConf, Bool.and_eq_true, decide_eq_true_eq]
    exact ⟨⟨hty2, htyO⟩, hpf⟩

/-- Element-wise version of `pruneV_conf`. -/
theorem pruneE_conf (O : List String) (ty : String) (ss1 ss0 : Sels) (es : Elems)
    (hc : esConf O ty ss1 es = true) (hs : subsel ss0 ss1 = true)
    (hd : selsDistinct ss1 = true) :
    esConf O ty ss0 (pruneE ss0 es) = true := by
  cases es with
  | enil => rfl
  | econs v es2 =>
    have hc2 : vConf O ty ss1 v = true ∧ esConf O ty ss1 es2 = true := by
      simpa [esConf, Bool.and_eq_true] using hc
    have h1 := pruneV_conf O ty ss1 ss0 v hc2.1 hs hd
    have h2 := pruneE_conf O ty ss1 ss0 es2 hc2.2 hs hd
    simp only [pruneE, esConf, Bool.and_eq_true]
    exact ⟨h1, h2⟩

/-- Pruning a result object conforming to the augmented selection set
against the original sub-selection yields an object that mirrors the
original set exactly: same field names, same order, recursively
conforming. -/
theorem pruneF_conf (O : List String) (flds : Fields) (sl1 sl0 : Sels)
    (hc : fConf O flds sl1 = true) (hs : subsel sl0 sl1 = true)
    (hd : selsDistinct sl1 = true) :
    fConf O (pruneF sl0 flds) sl0 = true := by
  cases flds with
  | fnil =>
    cases sl1 with
    | snil =>
      cases sl0 with
      | snil => rfl
      | scons s rest =>
        cases s with
        | mk f ty ss => simp [subsel] at hs
    | scons s rest =>
      cases s with
      | mk f ty ss => simp [fConf] at hc
  | fcons f v frest =>
    cases sl1 with
    | snil => simp [fConf] at hc
    | scons s1 rest1 =>
      cases s1 with
      | mk f2 ty ss1 =>
        have hc2 : (f = f2 ∧ vConf O ty ss1 v = true) ∧ fConf O frest rest1 = true := by
          simpa [fConf, Bool.and_eq_true, decide_eq_true_eq] using hc
        rcases hc2 with ⟨⟨hf, hcv⟩, hcf⟩
        have hd1 : (f2 ∉ selNames rest1 ∧ (selNames rest1).Nodup) ∧
            ((selNames ss1).Nodup ∧ ssNodup ss1 = true) ∧ ssNodup rest1 = true := by
          have hq : (selNames (Sels.scons (Sel.mk f2 ty ss1) rest1)).Nodup ∧
              ssNodup (Sels.scons (Sel.mk f2 ty ss1) rest1) = true := by
            simpa [selsDistinct, Bool.and_eq_true, decide_eq_true_eq] using hd
          rcases hq with ⟨hnod, hss⟩
          simp only [selNames, selName, List.nodup_cons] at hnod
          simp only [ssNodup, Bool.and_eq_true, decide_eq_true_eq] at hss
          exact ⟨hnod, ⟨hss.1.1, hss.1.2⟩, hss.2⟩
        rcases hd1 with ⟨⟨hf2notin, hnodrest⟩, ⟨hnodss, hssss⟩, hssrest⟩
        have hdss1 : selsDistinct ss1 = true := by
          simp only [selsDistinct, Bool.and_eq_true, decide_eq_true_eq]
          exact ⟨hnodss, hssss⟩
        have hdrest1 : selsDistinct rest1 = true := by
          simp only [selsDistinct, Bool.and_eq_true, decide_eq_true_eq]
          exact ⟨hnodrest, hssrest⟩
        have hnamesrest : fieldNames frest = selNames rest1 :=
          fConf_names O frest rest1 hcf
        cases sl0 with
        | snil =>
          have hsnil : subsel Sels.snil rest1 = true := by
            cases rest1 with
            | snil => rfl
            | scons s r =>
              cases s with
              | mk f9 ty9 ss9 => rfl
          have hrec := pruneF_conf O frest rest1 Sels.snil hcf hsnil hdrest1
          simpa [pruneF, findSel] using hrec
        | scons s0 rest0 =>
          cases s0 with
          | mk g ty0 ss0 =>
            by_cases hg : g = f2
            · have hs2 : ty0 = ty ∧ subsel ss0 ss1 = true ∧ subsel rest0 rest1 = true := by
                simp [subsel, hg] at hs
                exact ⟨hs.1.1, hs.1.2, hs.2⟩
              rcases hs2 with ⟨hty0, hsss, hsrest⟩
              have hgf : g = f := by rw [hg, ← hf]
              have hskip : pruneF (Sels.scons (Sel.mk g ty0 ss0) rest0) frest =
                  pruneF rest0 frest := by
                apply pruneF_skip
                intro f3 hm heq3
                rw [hnamesrest] at hm
                rw [heq3, hg] at hm
                exact hf2notin hm
              have hpv := pruneV_conf O ty ss1 ss0 v hcv hsss hdss1
              have hrec := pruneF_conf O frest rest1 rest0 hcf hsrest hdrest1
              have hfind : findSel f (Sels.scons (Sel.mk g ty0 ss0) rest0) =
                  some ss0 := by
                simp only [findSel, if_pos hgf]
              simp only [pruneF, hfind, hskip]
              simp only [fConf, Bool.and_eq_true, decide_eq_true_eq]
              refine ⟨⟨hgf.symm, ?_⟩, hrec⟩
              rw [hty0]
              exact hpv
            · have hs2 : subsel (Sels.scons (Sel.mk g ty0 ss0) rest0) rest1 = true := by
                simp only [subsel, if_neg hg] at hs
                exact hs
              have hnotin : f ∉ selNames (Sels.scons (Sel.mk g ty0 ss0) rest0) := by
                intro hmem
                have hin := subsel_names_sub _ rest1 hs2 f hmem
                rw [hf] at hin
                exact hf2notin hin
              have hfind : findSel f (Sels.scons (Sel.mk g ty0 ss0) rest0) = none :=
                findSel_none f _ hnotin
              have hrec := pruneF_conf O frest rest1
                (Sels.scons (Sel.mk g ty0 ss0) rest0) hcf hs2 hdrest1
              simp only [pruneF, hfind]
              exact hrec
end

/-- Pruning preserves the element count of every list. -/
theorem pruneE_len (sl : Sels) : ∀ (es : Elems),
    elemsLen (pruneE sl es) = elemsLen es
  | Elems.enil => rfl
  | Elems.econs v es2 => by
    simp only [pruneE, elemsLen, pruneE_len sl es2]

/-- Claim C9: for a successful execution, pruning the result (which conforms
to the augmented selection tree) against the original client selection tree
removes every field injected by the selection augmentor and yields data that
mirrors the original query exactly: the pruned result conforms to the
original tree, its field names are exactly the original field names in the
original order, list lengths pass through pruning unchanged and null values
stay null, so the null/empty-list nesting shape is preserved. -/
theorem pruner_preserves_original (O : List String) (sel0 sel1 : Sels)
    (flds : Fields) (hc : fConf O flds sel1 = true)
    (hs : subsel sel0 sel1 = true) (hd : selsDistinct sel1 = true) :
    fConf O (pruneF sel0 flds) sel0 = true ∧
      fieldNames (pruneF sel0 flds) = selNames sel0 ∧
      (∀ es : Elems, elemsLen (pruneE sel0 es) = elemsLen es) ∧
      pruneV sel0 Value.null = Value.null := by
  have h1 := pruneF_conf O flds sel1 sel0 hc hs hd
  exact ⟨h1, fConf_names O _ sel0 h1, fun es => pruneE_len sel0 es, rfl⟩

/-- Original client selection of the pruning demo: user { likes { id } }. -/
def c9Sel0 : Sels :=
  Sels.scons (Sel.mk "user" "User"
    (Sels.scons (Sel.mk "likes" "Like"
      (Sels.scons (Sel.mk "id" "ID" Sels.snil) Sels.snil)) Sels.snil)) Sels.snil

/-- Augmented selection of the pruning demo: the rule bound to Like injected
an ownerId field next to the requested id. -/
def c9Sel1 : Sels :=
  Sels.scons (Sel.mk "user" "User"
    (Sels.scons (Sel.mk "likes" "Like"
      (Sels.scons (Sel.mk "id" "ID" Sels.snil)
        (Sels.scons (Sel.mk "ownerId" "ID" Sels.snil) Sels.snil))) Sels.snil))
    Sels.snil

/-- Engine response of the pruning demo, conforming to the augmented
selection: the Like carries both id and the injected ownerId. -/
def c9Fields : Fields :=
  Fields.fcons "user" (Value.obj "User"
    (Fields.fcons "likes" (Value.arr (Elems.econs
      (Value.obj "Like" (Fields.fcons "id" (Value.scalar 1)
        (Fields.fcons "ownerId" (Value.scalar 9) Fields.fnil))) Elems.enil))
      Fields.fnil)) Fields.fnil

/-- Claim C9 witness: pruning the augmented demo response against the
original selection yields data conforming to the original selection with
exactly the original field names. -/
theorem pruner_preserves_original_witness :
    fConf demoO (pruneF c9Sel0 c9Fields) c9Sel0 = true ∧
      fieldNames (pruneF c9Sel0 c9Fields) = selNames c9Sel0 :=
  ⟨(pruner_preserves_original demoO c9Sel0 c9Sel1 c9Fields rfl rfl rfl).1,
    (pruner_preserves_original demoO c9Sel0 c9Sel1 c9Fields rfl rfl rfl).2.1⟩
